import Mathlib

/-!
Verification of the Geospatial Entity Resolution & Merge Engine
(`src/merge_dedupe.py`) against its natural-language specification.

The Python module is shallowly embedded below.  Python strings are modelled
as `List Char`; the Unicode-defined character classes and case folding of
`str.isalnum` / `str.isspace` / `str.lower` are modelled exactly on ASCII
and on an explicit table of non-ASCII codepoints (see the character-class
section), which is the whole region any theorem of this file touches.
Missing tabular values (pandas `NaN` / absent) are modelled as
`Option.none`.  Machine floats are modelled as exact rationals; the
Euclidean distance comparison `dist(p, q) <= r` is decided in the
sqrt-free form `dx^2 + dy^2 <= r^2`, which is equivalent for a nonnegative
radius.  The Web-Mercator projection applied by `gdf.to_crs(3857)` is a
pure per-point map supplied by the `pyproj` library; it is kept as an
explicit function parameter `proj`, so every theorem below holds for an
arbitrary projection.  Fallible code returns `Option`: the `KeyError`
that `_geo_dedup`'s final column-drop raises on an empty merged frame is
modelled as `none`.
-/

namespace MergeDedupe

/-- Python strings, modelled as lists of characters. -/
abbrev Str := List Char

/-! ### Character classes (Python `str.isalnum`, `str.isspace`, `str.lower`)

Python's string predicates and case folding are defined over the full
Unicode database, which cannot be transcribed wholesale.  The model below
is exact on all of ASCII and, beyond ASCII, carries an explicit table of
modelled codepoints with their true Unicode properties: U+00E9 (é, an
alphanumeric lowercase letter), U+0130 (İ, an alphanumeric uppercase
letter whose Python lowercase is the TWO-character string "i" + U+0307),
U+0307 (COMBINING DOT ABOVE, category Mn: neither alphanumeric nor
whitespace), and U+00A0 (NO-BREAK SPACE, whitespace).  Every theorem in
this file either restricts its inputs to ASCII or evaluates on modelled
characters, so no statement relies on the unlisted region (where the
model returns the defaults: not alphanumeric, not whitespace, lowercase
is the character itself). -/

/-- ASCII uppercase letter test. -/
def isUpperA (c : Char) : Bool := 65 ≤ c.toNat && c.toNat ≤ 90

/-- ASCII lowercase letter test. -/
def isLowerA (c : Char) : Bool := 97 ≤ c.toNat && c.toNat ≤ 122

/-- ASCII digit test. -/
def isDigitA (c : Char) : Bool := 48 ≤ c.toNat && c.toNat ≤ 57

/-- ASCII whitespace (space, tab, newline, vertical tab, form feed,
carriage return). -/
def isSpaceA (c : Char) : Bool :=
  c.toNat = 32 || c.toNat = 9 || c.toNat = 10 || c.toNat = 11 || c.toNat = 13 || c.toNat = 12

/-- Modelled non-ASCII codepoints for which Python `str.isalnum` is true:
U+00E9 (é) and U+0130 (İ).  U+0307 and U+00A0 are deliberately NOT here —
Python's `isalnum` is false on both. -/
def alnumExtra : List Nat := [0xE9, 0x130]

/-- Modelled non-ASCII codepoints for which Python `str.isspace` is true:
U+00A0 (NO-BREAK SPACE). -/
def spaceExtra : List Nat := [0xA0]

/-- Python `str.isalnum`, exact on ASCII and on the modelled non-ASCII
codepoints (see the section comment for the modelling scope). -/
def isAlnumPy (c : Char) : Bool :=
  isUpperA c || isLowerA c || isDigitA c || decide (c.toNat ∈ alnumExtra)

/-- Python `str.isspace`, exact on ASCII and on the modelled non-ASCII
codepoints. -/
def isSpacePy (c : Char) : Bool := isSpaceA c || decide (c.toNat ∈ spaceExtra)

/-- The 26 uppercase/lowercase ASCII letter pairs used by `lowerA`. -/
def lowerPairs : List (Char × Char) :=
  [('A', 'a'), ('B', 'b'), ('C', 'c'), ('D', 'd'), ('E', 'e'), ('F', 'f'),
   ('G', 'g'), ('H', 'h'), ('I', 'i'), ('J', 'j'), ('K', 'k'), ('L', 'l'),
   ('M', 'm'), ('N', 'n'), ('O', 'o'), ('P', 'p'), ('Q', 'q'), ('R', 'r'),
   ('S', 's'), ('T', 't'), ('U', 'u'), ('V', 'v'), ('W', 'w'), ('X', 'x'),
   ('Y', 'y'), ('Z', 'z')]

/-- The ASCII core of Python `str.lower`, one character to one
character. -/
def lowerA (c : Char) : Char :=
  match lowerPairs.find? (fun p => p.1 = c) with
  | some p => p.2
  | none => c

/-- Python `str.lower` applied to one character.  Unicode special casing
maps a character to a STRING: the modelled special case is U+0130 (İ),
whose Python lowercase is "i" + U+0307 (two characters).  On ASCII this
is the one-character ASCII folding; unlisted non-ASCII characters are
left unchanged (é is already lowercase). -/
def lowerPy (c : Char) : List Char :=
  if c.toNat = 0x130 then ['i', Char.ofNat 0x307]
  else [lowerA c]

/-! ### Name Normalizer (`_norm_name`) -/

/-- The character filter of `_norm_name`: `ch.isalnum() or ch.isspace()`. -/
def keepChar (c : Char) : Bool := isAlnumPy c || isSpacePy c

/-- Python `str.lstrip()` on the modelled whitespace class. -/
def lstripA (l : Str) : Str := l.dropWhile isSpacePy

/-- Python `str.rstrip()` on the modelled whitespace class. -/
def rstripA (l : Str) : Str := (l.reverse.dropWhile isSpacePy).reverse

/-- Python `str.strip()`: drop whitespace at both ends. -/
def stripA (l : Str) : Str := rstripA (lstripA l)

/-- The string branch of `_norm_name`:
`''.join(ch.lower() for ch in s if ch.isalnum() or ch.isspace()).strip()`.
Each `ch.lower()` is a string (possibly of two characters), and `join`
concatenates them, hence the `flatMap`. -/
def normStr (s : Str) : Str := stripA ((s.filter keepChar).flatMap lowerPy)

/-- `_norm_name(s)`: a non-string (absent / NaN) input normalizes to the
empty string, a string input is filtered, lowercased and stripped. -/
def pyNormName : Option Str → Str
  | none => []
  | some s => normStr s

/-- Python truthiness of an optional string value, as used by
`row.get("name") and row2.get("name")`: `None` and the empty string are
falsy.  (The Pipeline Driver coerces missing names to the empty string
with `fillna("")` before clustering, so a missing name reaches the
matcher only as an empty — falsy — string.) -/
def pyTruthy : Option Str → Bool
  | none => false
  | some s => !s.isEmpty

/-- Python `str(v)` on an optional string value: pandas renders a missing
value (`NaN`) as the three-character string `nan`. -/
def pyStr : Option Str → Str
  | none => ['n', 'a', 'n']
  | some s => s

/-- The ASCII-input restriction of the amended idempotence and
pre-normalization claims: the spec's Name Normalizer contract promises
"no locale-specific folding beyond ASCII case lowering", so those
properties are claimed for ASCII text (and refuted beyond it). -/
def asciiOnly : Option Str → Prop
  | none => True
  | some s => ∀ c ∈ s, c.toNat < 128

instance asciiOnlyDec : (a : Option Str) → Decidable (asciiOnly a)
  | none => isTrue trivial
  | some s => show Decidable (∀ c ∈ s, c.toNat < 128) from inferInstance

/-! ### Generic insertion sort (stable), used for token sorting and
`sort_values` -/

/-- Insert `x` into `l` before the first element `y` with `¬ le x y`;
stable for equal keys. -/
def insertBy (le : α → α → Bool) (x : α) : List α → List α
  | [] => [x]
  | y :: ys => if le x y then x :: y :: ys else y :: insertBy le x ys

/-- Stable insertion sort by the boolean relation `le`. -/
def sortBy (le : α → α → Bool) : List α → List α
  | [] => []
  | x :: xs => insertBy le x (sortBy le xs)

/-- Lexicographic comparison of strings by character code, Python `<=`. -/
def strLe : Str → Str → Bool
  | [], _ => true
  | _ :: _, [] => false
  | a :: as, b :: bs =>
    if a.toNat < b.toNat then true
    else if b.toNat < a.toNat then false
    else strLe as bs

/-! ### Fuzzy Matcher (`_fuzzy`, modelling `rapidfuzz.fuzz.token_set_ratio`) -/

/-- Python `s.split()`: split on whitespace runs, discarding empty chunks.
`acc` holds the current chunk, reversed. -/
def splitWsAux : Str → Str → List Str
  | [], acc => if acc.isEmpty then [] else [acc.reverse]
  | c :: cs, acc =>
    if isSpacePy c then
      if acc.isEmpty then splitWsAux cs [] else acc.reverse :: splitWsAux cs []
    else splitWsAux cs (c :: acc)

/-- Python `s.split()` with no separator argument. -/
def splitWs (s : Str) : List Str := splitWsAux s []

/-- Python `set(s.split())`, as a duplicate-free list of tokens. -/
def tokSet (s : Str) : List Str := (splitWs s).dedup

/-- Python `sep.join(parts)`. -/
def joinWith (sep : Char) : List Str → Str
  | [] => []
  | t :: [] => t
  | t :: t2 :: ts => t ++ sep :: joinWith sep (t2 :: ts)

/-- Longest-common-subsequence length, with structural fuel so that the
kernel can evaluate it.  Each recursive call shrinks the total length of
the two strings by at least one, so fuel equal to that total (as supplied
by `lcsLen`) is always sufficient. -/
def lcsLenFuel : Nat → Str → Str → Nat
  | 0, _, _ => 0
  | _, [], _ => 0
  | _, _ :: _, [] => 0
  | fuel + 1, a :: as, b :: bs =>
    if a = b then lcsLenFuel fuel as bs + 1
    else max (lcsLenFuel fuel (a :: as) bs) (lcsLenFuel fuel as (b :: bs))

/-- Length of a longest common subsequence of two strings. -/
def lcsLen (a b : Str) : Nat := lcsLenFuel (a.length + b.length) a b

/-- Indel (insertion/deletion-only Levenshtein) distance between two
strings, as used by `rapidfuzz`. -/
def indelDist (a b : Str) : Nat := a.length + b.length - 2 * lcsLen a b

/-- `rapidfuzz` normalized similarity on a 0–100 scale:
`100 * (1 - dist / lensum)`, with the convention `100` for `lensum = 0`. -/
def normSim (dist lensum : Nat) : ℚ :=
  if lensum = 0 then 100 else 100 * (1 - (dist : ℚ) / (lensum : ℚ))

/-- Core of `rapidfuzz.fuzz.token_set_ratio` on the two unique token sets:
compare the sorted intersection and the two sorted differences.  Two empty
token sets score 0 (the library's documented FuzzyWuzzy-compatibility
special case). -/
def tokenSetScoreCore (ta tb : List Str) : ℚ :=
  if ta.isEmpty && tb.isEmpty then 0
  else
    let inter := ta.filter (fun t => decide (t ∈ tb))
    let dab := ta.filter (fun t => !decide (t ∈ tb))
    let dba := tb.filter (fun t => !decide (t ∈ ta))
    if !inter.isEmpty && (dab.isEmpty || dba.isEmpty) then 100
    else
      let abJ := joinWith ' ' (sortBy strLe dab)
      let baJ := joinWith ' ' (sortBy strLe dba)
      let sectLen := (joinWith ' ' (sortBy strLe inter)).length
      let bump := if sectLen = 0 then 0 else 1
      let sectAb := sectLen + bump + abJ.length
      let sectBa := sectLen + bump + baJ.length
      let result := normSim (indelDist abJ baJ) (sectAb + sectBa)
      if sectLen = 0 then result
      else
        max result
          (max (normSim (bump + abJ.length) (sectLen + sectAb))
            (normSim (bump + baJ.length) (sectLen + sectBa)))

/-- Model of `rapidfuzz.fuzz.token_set_ratio` (the library function called
by `_fuzzy`): tokenize both strings into unique token sets and score them
with `tokenSetScoreCore`. -/
def tokenSetScore (s1 s2 : Str) : ℚ := tokenSetScoreCore (tokSet s1) (tokSet s2)

/-- `_fuzzy(a, b) = fuzz.token_set_ratio(_norm_name(a), _norm_name(b))`. -/
def fuzzy (a b : Option Str) : ℚ := tokenSetScore (pyNormName a) (pyNormName b)

/-! ### Data model -/

/-- One input row: the columns of the tabular record set that the engine
reads.  `none` models a missing (NaN) cell. -/
structure Row where
  name : Option Str
  latitude : Option ℚ
  longitude : Option ℚ
  source_primary : Option Str
  operator_brand : Option Str
  operator_company : Option Str
  operator_source_url : Option Str
  website : Option Str
  phone : Option Str
  email : Option Str
deriving DecidableEq

/-- A row together with its projected planar geometry (the `geometry`
column added by `points_from_xy` + `to_crs(3857)`), in meters. -/
structure GRow where
  row : Row
  geom : ℚ × ℚ
deriving DecidableEq

/-- A merged output row: the (possibly backfilled) base row plus the
`source_secondary` provenance column. -/
structure MRow where
  row : Row
  source_secondary : Str
deriving DecidableEq

/-! ### Cluster Builder -/

/-- `row.geometry.distance(row2.geometry) <= radius_m`, decided without a
square root: for `0 ≤ r` the Euclidean distance is at most `r` iff the
squared distance is at most `r^2`. -/
def distLe (p q : ℚ × ℚ) (r : ℚ) : Bool :=
  decide ((p.1 - q.1) ^ 2 + (p.2 - q.2) ^ 2 ≤ r ^ 2)

/-- The grouping test of `_geo_dedup`: candidate `b` joins the block seeded
by `a` iff the planar distance is within the radius AND (the fuzzy score of
the names is at least 80, OR both raw names are truthy and their
normalizations coincide). -/
def matchCond (r : ℚ) (a b : GRow) : Bool :=
  distLe a.geom b.geom r &&
    (decide (80 ≤ fuzzy a.row.name b.row.name) ||
      (pyTruthy a.row.name && pyTruthy b.row.name &&
        decide (pyNormName a.row.name = pyNormName b.row.name)))

/-- The inner loop of `_geo_dedup`: the block grown around the seed `i`,
scanning every row `j` of the bucket, skipping `j == i` and rows already
used, and comparing only against the seed. -/
def collectBlock (r : ℚ) (seed : Nat × GRow) (cand : List (Nat × GRow))
    (used : List Nat) : List (Nat × GRow) :=
  seed :: cand.filter (fun j =>
    decide (j.1 ≠ seed.1) && !decide (j.1 ∈ used) && matchCond r seed.2 j.2)

/-- The outer loop of `_geo_dedup` over one bucket: rows are taken as seeds
in input order, rows already used are skipped, and each finished block
marks all of its members as used. -/
def blocksAux (r : ℚ) (cand : List (Nat × GRow)) :
    List (Nat × GRow) → List Nat → List (List (Nat × GRow))
  | [], _ => []
  | i :: rest, used =>
    if i.1 ∈ used then blocksAux r cand rest used
    else
      collectBlock r i cand used ::
        blocksAux r cand rest (used ++ (collectBlock r i cand used).map Prod.fst)

/-- All blocks of one bucket, in seed order. -/
def blocksOf (r : ℚ) (cand : List (Nat × GRow)) : List (List (Nat × GRow)) :=
  blocksAux r cand cand []

/-! ### Record Merger -/

/-- Ascending comparison on the `source_primary` column as performed by
`sort_values(by=["source_primary"], na_position="last")`: strings compare
lexicographically, a missing tag sorts after every string. -/
def srcLe : Option Str → Option Str → Bool
  | none, none => true
  | none, some _ => false
  | some _, none => true
  | some a, some b => strLe a b

/-- `cand.loc[block].sort_values(by=["source_primary"], na_position="last")`:
ascending sort of the block rows by source tag.  (`sort_values` does not
document stability for its default sort kind; only the first sorted row is
consumed, and the model commits to the stable order, which makes the base
the earliest block member with a minimal tag.) -/
def sortBlock (blk : List (Nat × GRow)) : List (Nat × GRow) :=
  sortBy (fun x y => srcLe x.2.row.source_primary y.2.row.source_primary) blk

/-- The base record of a block: the first row of the sorted block
(`.iloc[0]`). -/
def selectBase (blk : List (Nat × GRow)) : Option (Nat × GRow) :=
  (sortBlock blk).head?

/-- The emptiness test of the backfill loop:
`pd.isna(v) or str(v or "").strip() == ""`. -/
def isBlankV : Option Str → Bool
  | none => true
  | some s => (stripA s).isEmpty

/-- One column of the backfill loop: if the base value is blank, take the
value of the first block member (in block order, the base included) whose
value is not blank; otherwise keep the base value. -/
def backfill (blk : List (Nat × GRow)) (get : Row → Option Str)
    (cur : Option Str) : Option Str :=
  if isBlankV cur then
    match blk.find? (fun k => !isBlankV (get k.2.row)) with
    | some k => get k.2.row
    | none => cur
  else cur

/-- The six backfillable columns (`prefer_cols`). -/
inductive BackfillCol
  | brand | company | url | website | phone | email
deriving DecidableEq

/-- Column accessor for the backfillable columns. -/
def getCol : BackfillCol → Row → Option Str
  | .brand, r => r.operator_brand
  | .company, r => r.operator_company
  | .url, r => r.operator_source_url
  | .website, r => r.website
  | .phone, r => r.phone
  | .email, r => r.email

/-- The backfill loop over `prefer_cols`, applied to the base row. -/
def backfillRow (blk : List (Nat × GRow)) (base : Row) : Row :=
  { base with
    operator_brand := backfill blk (fun r => r.operator_brand) base.operator_brand
    operator_company := backfill blk (fun r => r.operator_company) base.operator_company
    operator_source_url := backfill blk (fun r => r.operator_source_url) base.operator_source_url
    website := backfill blk (fun r => r.website) base.website
    phone := backfill blk (fun r => r.phone) base.phone
    email := backfill blk (fun r => r.email) base.email }

/-- Reduce one block to one merged record: pick the base by sorted source
tag, backfill the six columns, and join the source tags of every non-base
member (by row label, in block order, duplicates kept) with semicolons. -/
def mergeBlock (blk : List (Nat × GRow)) : Option MRow :=
  match selectBase blk with
  | none => none
  | some base =>
    some
      { row := backfillRow blk base.2.row
        source_secondary :=
          joinWith ';'
            ((blk.filter (fun p => decide (p.1 ≠ base.1))).map
              (fun p => pyStr p.2.row.source_primary)) }

/-! ### Grid Bucketer and Pipeline Driver -/

/-- Floor of a rational, computed on the raw numerator and denominator. -/
def qfloor (q : ℚ) : ℤ := q.num.fdiv q.den

/-- IEEE half-to-even rounding of a rational to an integer, the rounding
used by `numpy`'s `round`. -/
def roundHalfEven (q : ℚ) : ℤ :=
  let f := qfloor q
  let frac := q - (f : ℚ)
  if frac < 1 / 2 then f
  else if 1 / 2 < frac then f + 1
  else if f % 2 = 0 then f else f + 1

/-- `x.round(-1).astype(int)`: round a projected coordinate to the nearest
multiple of ten meters. -/
def bucketCoord (x : ℚ) : ℤ := 10 * roundHalfEven (x / 10)

/-- The bucket key of a projected point (the `cluster` column; the code
renders it as the string `x:y`, modelled here as the pair). -/
def bucketKey (g : ℚ × ℚ) : ℤ × ℤ := (bucketCoord g.1, bucketCoord g.2)

/-- The distinct bucket keys of a row list, in first-appearance order.
(pandas `groupby` emits groups sorted by the string key; no property below
depends on the order in which buckets are emitted.) -/
def keysOf (l : List (Nat × GRow)) : List (ℤ × ℤ) :=
  l.foldl (fun ks p =>
    if bucketKey p.2.geom ∈ ks then ks else ks ++ [bucketKey p.2.geom]) []

/-- `gdf.groupby("cluster")`: the rows of each bucket, in input order
within each bucket. -/
def groupByCluster (l : List (Nat × GRow)) : List (List (Nat × GRow)) :=
  (keysOf l).map (fun k => l.filter (fun p => decide (bucketKey p.2.geom = k)))

/-- Cluster one bucket and merge each of its blocks. -/
def processBucket (r : ℚ) (grp : List (Nat × GRow)) : List MRow :=
  (blocksOf r grp).filterMap mergeBlock

/-- The `out_rows` list accumulated by `_geo_dedup`: attach projected
geometry, bucket, cluster each bucket, and merge every block.  `proj` is
the Web-Mercator projection `(longitude, latitude) ↦ (x, y)` applied by
`to_crs(3857)`. -/
def out_rows (proj : ℚ × ℚ → ℚ × ℚ) (r : ℚ) (rows : List (Nat × Row)) :
    List MRow :=
  ((groupByCluster (rows.map (fun p =>
    (p.1, GRow.mk p.2 (proj ((p.2.longitude).getD 0, (p.2.latitude).getD 0)))))).map
      (processBucket r)).flatten

/-- `_geo_dedup(df, radius_m)`: the accumulated `out_rows`, followed by
`pd.DataFrame(out_rows).drop(columns=["geometry","cluster"])`.  When
`out_rows` is empty (the input frame had no rows, hence no buckets), the
constructed frame has NO columns and `drop` raises `KeyError`; the raised
error is modelled as `none`.  Otherwise every accumulated row carries the
`geometry` and `cluster` entries, the drop succeeds, and the result is
the merged rows without those two columns (`MRow` never carries them). -/
def geo_dedup (proj : ℚ × ℚ → ℚ × ℚ) (r : ℚ) (rows : List (Nat × Row)) :
    Option (List MRow) :=
  if (out_rows proj r rows).isEmpty then none else some (out_rows proj r rows)

/-- `df["name"].fillna("")`: coerce a missing name to the empty string. -/
def fillName (row : Row) : Row := { row with name := some ((row.name).getD []) }

/-- A row passes `dropna(subset=["latitude","longitude"])` iff both
coordinates are present. -/
def hasCoords (row : Row) : Bool := row.latitude.isSome && row.longitude.isSome

/-- The data path of `main()` after reading the input tables: concatenate
the input frames; on an empty frame take the early return (write an empty
output, no error); otherwise fill missing names, drop rows without
coordinates, and run `_geo_dedup` with the default 200 m radius —
`_geo_dedup`'s `KeyError` (see `geo_dedup`) propagates as `none`. -/
def mainProcess (proj : ℚ × ℚ → ℚ × ℚ) (inputs : List (List Row)) :
    Option (List MRow) :=
  if inputs.flatten.isEmpty then some []
  else
    geo_dedup proj 200
      ((inputs.flatten.map fillName).enum.filter (fun p => hasCoords p.2))

/-! ### Definitions transcribed from the claims' wording, for refinement
comparison with the code -/

/-- Transcribed from claim C1's wording: `j` joins `i`'s block exactly when
the planar distance is within the radius AND (the fuzzy score is at least
80, or the two normalized names are identical and non-empty). -/
def claimMatchCond (r : ℚ) (a b : GRow) : Bool :=
  distLe a.geom b.geom r &&
    (decide (80 ≤ fuzzy a.row.name b.row.name) ||
      (decide (pyNormName a.row.name = pyNormName b.row.name) &&
        !(pyNormName a.row.name).isEmpty))

/-- Transcribed from claim C2's wording: a source tag that is absent OR the
empty string sorts after every non-empty tag. -/
def claimTagBlank : Option Str → Bool
  | none => true
  | some s => s.isEmpty

/-- Transcribed from claim C2's wording: ascending lexicographic comparison
of source tags in which absent/empty tags sort last. -/
def claimSrcLe (a b : Option Str) : Bool :=
  if claimTagBlank a then claimTagBlank b
  else if claimTagBlank b then true
  else strLe (a.getD []) (b.getD [])

/-- Transcribed from claim C2's wording: the base record obtained by a
stable ascending sort under `claimSrcLe`, taking the first member. -/
def claimSelectBase (blk : List (Nat × GRow)) : Option (Nat × GRow) :=
  (sortBy (fun x y => claimSrcLe x.2.row.source_primary y.2.row.source_primary) blk).head?

/-- The earliest block member whose source tag is `srcLe`-below the tag of
every block member: the order-theoretic description of the row that
`sort_values(...).iloc[0]` returns. -/
def firstMinBy (blk : List (Nat × GRow)) : Option (Nat × GRow) :=
  blk.find? (fun x => blk.all (fun y => srcLe x.2.row.source_primary y.2.row.source_primary))

/-! ### Concrete test rows -/

/-- A concrete row with the given name and source tag, at coordinates
`(0, 0)`, with no supplementary attributes. -/
def mkRow (nm src : Option Str) : Row :=
  { name := nm, latitude := some 0, longitude := some 0, source_primary := src,
    operator_brand := none, operator_company := none, operator_source_url := none,
    website := none, phone := none, email := none }

/-- A record named with a single exclamation mark: truthy, but its
normalization is empty. -/
def rowBang : GRow := ⟨mkRow (some ['!']) none, (0, 0)⟩

/-- A record named with a single question mark: truthy, but its
normalization is empty. -/
def rowQm : GRow := ⟨mkRow (some ['?']) none, (0, 0)⟩

/-- A two-record bucket whose names are distinct punctuation. -/
def candPunct : List (Nat × GRow) := [(0, rowBang), (1, rowQm)]

/-- A record with an absent name. -/
def rowNoName : GRow := ⟨mkRow none (some ['a']), (0, 0)⟩

/-- A record with an empty-string name, 5 m away from the origin. -/
def rowEmptyName : GRow := ⟨mkRow (some []) (some ['b']), (3, 4)⟩

/-- A two-record bucket whose names are absent / empty. -/
def candNoName : List (Nat × GRow) := [(0, rowNoName), (1, rowEmptyName)]

/-- A record whose source tag is the one-letter string `b`. -/
def rowTagB : GRow := ⟨mkRow (some ['x']) (some ['b']), (0, 0)⟩

/-- A record whose source tag is the empty string. -/
def rowTagEmpty : GRow := ⟨mkRow (some ['y']) (some []), (0, 0)⟩

/-- A block whose members carry source tags `b` and the empty string. -/
def blkTags : List (Nat × GRow) := [(0, rowTagB), (1, rowTagEmpty)]

/-- A record named `p` from source `a`. -/
def rowSrcA : GRow := ⟨mkRow (some ['p']) (some ['a']), (0, 0)⟩

/-- A record named `p` from source `b`. -/
def rowSrcB : GRow := ⟨mkRow (some ['p']) (some ['b']), (0, 0)⟩

/-- A two-record bucket of identically named, co-located records. -/
def grpSrc : List (Nat × GRow) := [(0, rowSrcA), (1, rowSrcB)]

/-- The single block that clustering `grpSrc` produces. -/
def blkSrc : List (Nat × GRow) := [(0, rowSrcA), (1, rowSrcB)]

/-- The merged record of `blkSrc`: base `rowSrcA`, provenance `b`. -/
def mrSrc : MRow := ⟨backfillRow blkSrc rowSrcA.row, ['b']⟩

/-- A record with source tag `a` and phone `7`. -/
def rowPhA : GRow :=
  ⟨{ mkRow (some ['p']) (some ['a']) with phone := some ['7'] }, (0, 0)⟩

/-- A record with source tag `b` and phone `9`. -/
def rowPhB : GRow :=
  ⟨{ mkRow (some ['p']) (some ['b']) with phone := some ['9'] }, (0, 0)⟩

/-- A block whose base and non-base member both carry a phone value. -/
def blkPh : List (Nat × GRow) := [(0, rowPhA), (1, rowPhB)]

/-- The merged record of `blkPh`. -/
def mrPh : MRow := ⟨backfillRow blkPh rowPhA.row, ['b']⟩

/-- The identity projection, used to instantiate the arbitrary projection
parameter in concrete runs. -/
def projId : ℚ × ℚ → ℚ × ℚ := fun p => p

/-- An input row with both coordinates present. -/
def rowGood : Row := mkRow (some ['a']) (some ['s'])

/-- An input row lacking its latitude. -/
def rowBad : Row := { mkRow (some ['z']) (some ['t']) with latitude := none }

/-- A one-table input holding one good and one coordinate-less row. -/
def inputsW : List (List Row) := [[rowGood, rowBad]]

/-! ### Lemmas: the string order -/

lemma strLe_refl (s : Str) : strLe s s = true := by
  induction s with
  | nil => rfl
  | cons a as ih => simp [strLe, ih]

lemma strLe_total (s t : Str) : strLe s t = true ∨ strLe t s = true := by
  induction s generalizing t with
  | nil => left; rfl
  | cons a as ih =>
    cases t with
    | nil => right; rfl
    | cons b bs =>
      rcases Nat.lt_trichotomy a.toNat b.toNat with h | h | h
      · left; simp [strLe, h]
      · rcases ih bs with h2 | h2
        · left; simp [strLe, h, h2]
        · right; simp [strLe, h, h2]
      · right; simp [strLe, h]

lemma strLe_trans : ∀ s t u : Str,
    strLe s t = true → strLe t u = true → strLe s u = true := by
  intro s
  induction s with
  | nil => intro t u _ _; rfl
  | cons a as ih =>
    intro t u h1 h2
    cases t with
    | nil => simp [strLe] at h1
    | cons b bs =>
      cases u with
      | nil => simp [strLe] at h2
      | cons c cs =>
        rcases Nat.lt_trichotomy a.toNat b.toNat with hab | hab | hab <;>
          rcases Nat.lt_trichotomy b.toNat c.toNat with hbc | hbc | hbc
        · simp [strLe, show a.toNat < c.toNat by omega]
        · simp [strLe, show a.toNat < c.toNat by omega]
        · simp [strLe, hbc, Nat.lt_asymm hbc] at h2
        · simp [strLe, show a.toNat < c.toNat by omega]
        · have h1' : strLe as bs = true := by simpa [strLe, hab] using h1
          have h2' : strLe bs cs = true := by simpa [strLe, hbc] using h2
          simp [strLe, hab, hbc, ih bs cs h1' h2']
        · simp [strLe, hbc, Nat.lt_asymm hbc] at h2
        · simp [strLe, hab, Nat.lt_asymm hab] at h1
        · simp [strLe, hab, Nat.lt_asymm hab] at h1
        · simp [strLe, hab, Nat.lt_asymm hab] at h1

lemma srcLe_refl (a : Option Str) : srcLe a a = true := by
  cases a with
  | none => rfl
  | some s => exact strLe_refl s

lemma srcLe_total (a b : Option Str) : srcLe a b = true ∨ srcLe b a = true := by
  cases a with
  | none => cases b with
    | none => left; rfl
    | some t => right; rfl
  | some s => cases b with
    | none => left; rfl
    | some t => exact strLe_total s t

lemma srcLe_trans {a b c : Option Str}
    (h1 : srcLe a b = true) (h2 : srcLe b c = true) : srcLe a c = true := by
  cases a with
  | none => cases b with
    | none => cases c with
      | none => rfl
      | some u => exact h2
    | some t => simp [srcLe] at h1
  | some s => cases c with
    | none => rfl
    | some u =>
      cases b with
      | none => simp [srcLe] at h2
      | some t => exact strLe_trans s t u h1 h2

/-! ### Lemmas: stable insertion sort -/

lemma insertBy_perm (le : α → α → Bool) (x : α) (l : List α) :
    List.Perm (insertBy le x l) (x :: l) := by
  induction l with
  | nil => exact List.Perm.refl _
  | cons y ys ih =>
    by_cases h : le x y = true
    · simp only [insertBy, if_pos h]
      exact List.Perm.refl _
    · simp only [insertBy, if_neg h]
      exact (ih.cons y).trans (List.Perm.swap x y ys)

lemma sortBy_perm (le : α → α → Bool) (l : List α) :
    List.Perm (sortBy le l) l := by
  induction l with
  | nil => exact List.Perm.refl _
  | cons x xs ih => exact (insertBy_perm le x (sortBy le xs)).trans (ih.cons x)

lemma find?_sub (p q : α → Bool) (hpq : ∀ x, q x = true → p x = true) :
    ∀ (l : List α) (a : α), l.find? p = some a → q a = true → l.find? q = some a := by
  intro l
  induction l with
  | nil => intro a h _; simp at h
  | cons x xs ih =>
    intro a h hq
    by_cases hx : p x = true
    · rw [List.find?_cons_of_pos _ hx] at h
      cases h
      rw [List.find?_cons_of_pos _ hq]
    · have hqx : ¬ q x = true := fun hc => hx (hpq x hc)
      rw [List.find?_cons_of_neg _ (by simpa using hx)] at h
      rw [List.find?_cons_of_neg _ (by simpa using hqx)]
      exact ih a h hq

lemma head?_sortBy (le : α → α → Bool)
    (hrefl : ∀ a, le a a = true)
    (htot : ∀ a b, le a b = true ∨ le b a = true)
    (htrans : ∀ a b c, le a b = true → le b c = true → le a c = true) :
    ∀ l : List α, (sortBy le l).head? = l.find? (fun x => l.all (le x)) := by
  intro l
  induction l with
  | nil => rfl
  | cons x xs ih =>
    cases hs : sortBy le xs with
    | nil =>
      have hp := sortBy_perm le xs
      rw [hs] at hp
      have hxs : xs = [] := hp.symm.eq_nil
      subst hxs
      simp [sortBy, insertBy, hrefl]
    | cons h t =>
      have hfind : xs.find? (fun y => xs.all (le y)) = some h := by
        rw [← ih, hs]; rfl
      have hmin : ∀ y ∈ xs, le h y = true := by
        have hh := List.find?_some hfind
        simp only [List.all_eq_true] at hh
        exact hh
      have hmem : h ∈ xs := List.mem_of_find?_eq_some hfind
      by_cases hxh : le x h = true
      · have hxall : ∀ y ∈ xs, le x y = true :=
          fun y hy => htrans x h y hxh (hmin y hy)
        have : (sortBy le (x :: xs)).head? = some x := by
          simp [sortBy, hs, insertBy, hxh]
        rw [this, List.find?_cons_of_pos]
        simp only [List.all_cons, Bool.and_eq_true, List.all_eq_true]
        exact ⟨hrefl x, fun y hy => hxall y hy⟩
      · have hhx : le h x = true := (htot x h).resolve_left hxh
        have : (sortBy le (x :: xs)).head? = some h := by
          simp [sortBy, hs, insertBy, hxh]
        rw [this]
        have hqx : ¬ ((x :: xs).all (le x) = true) := by
          simp only [List.all_cons, Bool.and_eq_true, List.all_eq_true]
          rintro ⟨-, hall⟩
          exact hxh (hall h hmem)
        rw [List.find?_cons_of_neg _ (by simpa using hqx)]
        refine (find?_sub (fun y => xs.all (le y)) (fun y => (x :: xs).all (le y))
          (fun y hy => ?_) xs h hfind ?_).symm
        · simp only [List.all_cons, Bool.and_eq_true] at hy
          exact hy.2
        · simp only [List.all_cons, Bool.and_eq_true, List.all_eq_true]
          exact ⟨hhx, fun y hy => hmin y hy⟩

/-! ### Lemmas: the normalizer -/

lemma keep_lowerA {c : Char} (h : keepChar c = true) : keepChar (lowerA c) = true := by
  unfold lowerA
  cases hf : lowerPairs.find? (fun p => p.1 = c) with
  | none => exact h
  | some p =>
    have hmem := List.mem_of_find?_eq_some hf
    have hall : ∀ q ∈ lowerPairs, keepChar q.2 = true := by decide
    exact hall p hmem

lemma lowerA_lowerA (c : Char) : lowerA (lowerA c) = lowerA c := by
  cases hf : lowerPairs.find? (fun p => p.1 = c) with
  | none =>
    have hc : lowerA c = c := by simp [lowerA, hf]
    rw [hc]
    exact hc
  | some p =>
    have hc : lowerA c = p.2 := by simp [lowerA, hf]
    have hmem := List.mem_of_find?_eq_some hf
    have hall : ∀ q ∈ lowerPairs, lowerA q.2 = q.2 := by decide
    rw [hc]
    exact hall p hmem

lemma dropWhile_dropWhile (p : α → Bool) (l : List α) :
    (l.dropWhile p).dropWhile p = l.dropWhile p := by
  induction l with
  | nil => rfl
  | cons a l ih =>
    by_cases h : p a = true
    · simp [List.dropWhile_cons, h, ih]
    · simp [List.dropWhile_cons, h]

lemma dropWhile_suffix' (p : α → Bool) (l : List α) : l.dropWhile p <:+ l := by
  induction l with
  | nil => exact List.suffix_refl []
  | cons a l ih =>
    by_cases h : p a = true
    · simpa [List.dropWhile_cons, h] using ih.trans (List.suffix_cons a l)
    · simp [List.dropWhile_cons, h]

lemma rstripA_front (l : Str) : rstripA l <+: l := by
  rcases dropWhile_suffix' isSpacePy l.reverse with ⟨t, ht⟩
  refine ⟨t.reverse, ?_⟩
  have h2 := congrArg List.reverse ht
  simpa [List.reverse_append] using h2

lemma lstripA_prefix_eq {m' m : Str} (hpre : m' <+: m) (hm : lstripA m = m) :
    lstripA m' = m' := by
  cases m' with
  | nil => rfl
  | cons c cs =>
    rcases hpre with ⟨t, ht⟩
    have hc : isSpacePy c = false := by
      cases hx : isSpacePy c
      · rfl
      · exfalso
        subst ht
        unfold lstripA at hm
        rw [List.cons_append, List.dropWhile_cons, if_pos hx] at hm
        have hlen := congrArg List.length hm
        have hle : (List.dropWhile isSpacePy (cs ++ t)).length ≤ (cs ++ t).length :=
          (dropWhile_suffix' isSpacePy (cs ++ t)).length_le
        simp only [List.length_cons, List.length_append] at hlen hle
        omega
    unfold lstripA
    rw [List.dropWhile_cons, if_neg (by simp [hc])]

lemma rstripA_rstripA (l : Str) : rstripA (rstripA l) = rstripA l := by
  unfold rstripA
  rw [List.reverse_reverse, dropWhile_dropWhile]

lemma stripA_stripA (l : Str) : stripA (stripA l) = stripA l := by
  unfold stripA
  rw [lstripA_prefix_eq (rstripA_front (lstripA l)) (dropWhile_dropWhile isSpacePy l),
    rstripA_rstripA]

lemma mem_stripA {x : Char} {l : Str} (h : x ∈ stripA l) : x ∈ l := by
  unfold stripA rstripA lstripA at h
  rw [List.mem_reverse] at h
  have h1 : x ∈ (l.dropWhile isSpacePy).reverse :=
    (dropWhile_suffix' isSpacePy _).subset h
  rw [List.mem_reverse] at h1
  exact (dropWhile_suffix' isSpacePy l).subset h1

lemma filter_eq_self_of (l : List α) (p : α → Bool) (h : ∀ x ∈ l, p x = true) :
    l.filter p = l := List.filter_eq_self.mpr h

lemma map_eq_self_of (l : List α) (f : α → α) (h : ∀ x ∈ l, f x = x) :
    l.map f = l := by
  induction l with
  | nil => rfl
  | cons a l ih =>
    simp only [List.map_cons, h a (List.mem_cons_self a l),
      ih (fun x hx => h x (List.mem_cons_of_mem a hx))]

lemma lowerA_ascii {c : Char} (hc : c.toNat < 128) : (lowerA c).toNat < 128 := by
  cases hf : lowerPairs.find? (fun p => p.1 = c) with
  | none => simpa [lowerA, hf] using hc
  | some p =>
    have hmem := List.mem_of_find?_eq_some hf
    have hall : ∀ q ∈ lowerPairs, q.2.toNat < 128 := by decide
    simpa [lowerA, hf] using hall p hmem

lemma lowerPy_ascii {c : Char} (hc : c.toNat < 128) : lowerPy c = [lowerA c] := by
  unfold lowerPy
  rw [if_neg (by omega)]

lemma flatMap_lowerPy_eq_map (l : Str) (h : ∀ c ∈ l, lowerPy c = [lowerA c]) :
    l.flatMap lowerPy = l.map lowerA := by
  induction l with
  | nil => rfl
  | cons a l ih =>
    rw [List.flatMap_cons, List.map_cons, h a (List.mem_cons_self a l),
      ih (fun c hc => h c (List.mem_cons_of_mem a hc))]
    rfl

lemma normStr_ascii_eq (s : Str) (hs : ∀ c ∈ s, c.toNat < 128) :
    normStr s = stripA ((s.filter keepChar).map lowerA) := by
  unfold normStr
  rw [flatMap_lowerPy_eq_map (s.filter keepChar)
    (fun c hc => lowerPy_ascii (hs c (List.mem_of_mem_filter hc)))]

lemma normStr_idem_ascii {s : Str} (hs : ∀ c ∈ s, c.toNat < 128) :
    normStr (normStr s) = normStr s := by
  have hstep := normStr_ascii_eq s hs
  have hmem : ∀ c ∈ normStr s, keepChar c = true ∧ lowerA c = c ∧ c.toNat < 128 := by
    intro c hc
    rw [hstep] at hc
    have hc' : c ∈ (s.filter keepChar).map lowerA := mem_stripA hc
    rcases List.mem_map.mp hc' with ⟨c0, hc0, rfl⟩
    have hk : keepChar c0 = true := List.of_mem_filter hc0
    have ha0 : c0.toNat < 128 := hs c0 (List.mem_of_mem_filter hc0)
    exact ⟨keep_lowerA hk, lowerA_lowerA c0, lowerA_ascii ha0⟩
  show stripA (((normStr s).filter keepChar).flatMap lowerPy) = normStr s
  rw [flatMap_lowerPy_eq_map ((normStr s).filter keepChar)
      (fun c hc => lowerPy_ascii ((hmem c (List.mem_of_mem_filter hc)).2.2)),
    filter_eq_self_of _ _ (fun x hx => (hmem x hx).1),
    map_eq_self_of _ _ (fun x hx => (hmem x hx).2.1),
    hstep]
  exact stripA_stripA _

lemma pyNormName_idem_ascii {a : Option Str} (h : asciiOnly a) :
    pyNormName (some (pyNormName a)) = pyNormName a := by
  cases a with
  | none => rfl
  | some s => exact normStr_idem_ascii h

/-- Claim C9, amended: name normalization is idempotent on ASCII strings —
the scope of the spec's normalizer contract (no folding beyond ASCII case
lowering): for every string `s` of ASCII characters,
`_norm_name(_norm_name(s)) = _norm_name(s)`.  On full Unicode input the
code is NOT idempotent: Python lowercases U+0130 (İ) to the two-character
string "i" + U+0307, and the combining dot — neither alphanumeric nor
whitespace — is dropped by the second pass (see the counterexample). -/
theorem c9_norm_name_idempotent (s : Str) (h : ∀ c ∈ s, c.toNat < 128) :
    pyNormName (some (pyNormName (some s))) = pyNormName (some s) :=
  normStr_idem_ascii h

/-- Claim C9, witness: idempotence evaluated on a concrete ASCII string. -/
theorem c9_norm_name_idempotent_inst :
    pyNormName (some (pyNormName (some [' ', 'A', 'b', '1', '!']))) =
      pyNormName (some [' ', 'A', 'b', '1', '!']) :=
  c9_norm_name_idempotent [' ', 'A', 'b', '1', '!'] (by decide)

/-- Claim C9, counterexample to the original wording: for the
one-character string U+0130 (İ), the first normalization yields
"i" + U+0307, and renormalizing drops the combining dot, so `_norm_name`
is not idempotent on this input. -/
theorem c9_counterexample :
    pyNormName (some (pyNormName (some [Char.ofNat 0x130]))) ≠
      pyNormName (some [Char.ofNat 0x130]) := by decide

/-- Claim C10, amended: on ASCII name inputs (the normalizer contract's
scope) the fuzzy score is invariant under pre-normalization of its
inputs: `_fuzzy(a, b) = _fuzzy(_norm_name(a), _norm_name(b))`.  On full
Unicode input the invariance fails together with idempotence (see the
counterexample). -/
theorem c10_fuzzy_pre_normalization (a b : Option Str)
    (ha : asciiOnly a) (hb : asciiOnly b) :
    fuzzy a b = fuzzy (some (pyNormName a)) (some (pyNormName b)) := by
  unfold fuzzy
  rw [pyNormName_idem_ascii ha, pyNormName_idem_ascii hb]

/-- Claim C10, witness: pre-normalization invariance evaluated on
concrete ASCII names. -/
theorem c10_fuzzy_pre_normalization_inst :
    fuzzy (some ['A', 'b']) (some ['a', 'B']) =
      fuzzy (some (pyNormName (some ['A', 'b'])))
        (some (pyNormName (some ['a', 'B']))) :=
  c10_fuzzy_pre_normalization (some ['A', 'b']) (some ['a', 'B'])
    (by decide) (by decide)

/-- Claim C10, counterexample to the original wording: for the raw names
U+0130 (İ) and "i", `_fuzzy` scores the raw pair `normSim 1 3` = 200/3
(the normalization of İ still carries the combining dot, so the token
strings differ by one character), while the pre-normalized pair scores
100 — pre-normalization invariance fails on non-ASCII input. -/
theorem c10_counterexample :
    fuzzy (some [Char.ofNat 0x130]) (some ['i']) ≠
      fuzzy (some (pyNormName (some [Char.ofNat 0x130])))
        (some (pyNormName (some ['i']))) := by
  rw [show fuzzy (some [Char.ofNat 0x130]) (some ['i']) = normSim 1 3 from rfl]
  rw [show fuzzy (some (pyNormName (some [Char.ofNat 0x130])))
      (some (pyNormName (some ['i']))) = (100 : ℚ) from rfl]
  unfold normSim
  rw [if_neg (by norm_num)]
  norm_num

/-! ### Lemmas: the fuzzy score on token-free inputs -/

lemma splitWsAux_ne_nil (s : Str) : ∀ (acc : Str), ∀ t ∈ splitWsAux s acc, t ≠ [] := by
  induction s with
  | nil =>
    intro acc t ht
    by_cases h : acc.isEmpty = true
    · simp [splitWsAux, h] at ht
    · simp only [splitWsAux, if_neg h, List.mem_singleton] at ht
      subst ht
      simp only [ne_eq, List.reverse_eq_nil_iff]
      intro hc
      rw [hc] at h
      exact h rfl
  | cons c cs ih =>
    intro acc t ht
    by_cases hsp : isSpacePy c = true
    · by_cases hacc : acc.isEmpty = true
      · simp only [splitWsAux, if_pos hsp, if_pos hacc] at ht
        exact ih [] t ht
      · simp only [splitWsAux, if_pos hsp, if_neg hacc, List.mem_cons] at ht
        rcases ht with rfl | ht
        · simp only [ne_eq, List.reverse_eq_nil_iff]
          intro hc
          rw [hc] at hacc
          exact hacc rfl
        · exact ih [] t ht
    · simp only [splitWsAux, if_neg hsp] at ht
      exact ih (c :: acc) t ht

lemma tokSet_ne_nil {s t : Str} (h : t ∈ tokSet s) : t ≠ [] :=
  splitWsAux_ne_nil s [] t (List.mem_dedup.mp h)

lemma joinWith_length_ge (sep : Char) (t : Str) (ts : List Str) :
    t.length ≤ (joinWith sep (t :: ts)).length := by
  cases ts with
  | nil => simp [joinWith]
  | cons t2 ts => simp [joinWith]

lemma lcsLenFuel_nil_right (f : Nat) (a : Str) : lcsLenFuel f a [] = 0 := by
  cases f <;> cases a <;> rfl

lemma lcsLenFuel_nil_left (f : Nat) (b : Str) : lcsLenFuel f [] b = 0 := by
  cases f <;> cases b <;> rfl

lemma lcsLen_nil_right (a : Str) : lcsLen a [] = 0 := by
  unfold lcsLen
  exact lcsLenFuel_nil_right _ _

lemma lcsLen_nil_left (b : Str) : lcsLen [] b = 0 := by
  unfold lcsLen
  exact lcsLenFuel_nil_left _ _

lemma normSim_self {n : ℕ} (h : n ≠ 0) : normSim n n = 0 := by
  unfold normSim
  rw [if_neg h, div_self (by exact_mod_cast h : (n : ℚ) ≠ 0)]
  ring

lemma sortBy_ne_nil {le : α → α → Bool} {x : α} {xs : List α} :
    sortBy le (x :: xs) ≠ [] := by
  intro hc
  have hp := sortBy_perm le (x :: xs)
  rw [hc] at hp
  exact absurd hp.symm.eq_nil (by simp)

lemma tokenSetScoreCore_nil_right (ta : List Str) (hne : ∀ u ∈ ta, u ≠ []) :
    tokenSetScoreCore ta [] = 0 := by
  cases ta with
  | nil => rfl
  | cons t rest =>
    cases hsrt : sortBy strLe (t :: rest) with
    | nil => exact absurd hsrt sortBy_ne_nil
    | cons u us =>
      have hu : u ∈ t :: rest := by
        have hp := sortBy_perm strLe (t :: rest)
        rw [hsrt] at hp
        exact hp.mem_iff.mp (List.mem_cons_self u us)
      have hul : 1 ≤ u.length := by
        have hune := hne u hu
        cases u with
        | nil => exact absurd rfl hune
        | cons a as => simp
      have hlen : 1 ≤ (joinWith ' ' (u :: us)).length :=
        le_trans hul (joinWith_length_ge ' ' u us)
      unfold tokenSetScoreCore
      simp only [List.isEmpty_cons, List.isEmpty_nil, Bool.false_and,
        Bool.false_eq_true, if_false, List.not_mem_nil, decide_False,
        Bool.not_false, List.filter_true, List.filter_false, List.filter_nil,
        List.isEmpty_nil, Bool.and_false, Bool.false_or, Bool.and_true]
      rw [hsrt]
      simp only [sortBy, joinWith, List.length_nil]
      have hd : indelDist (joinWith ' ' (u :: us)) [] = (joinWith ' ' (u :: us)).length := by
        unfold indelDist
        rw [lcsLen_nil_right]
        simp
      rw [hd]
      simp only [if_true, Nat.add_zero, Nat.zero_add]
      exact normSim_self (by omega)

lemma tokenSetScoreCore_nil_left (tb : List Str) (hne : ∀ u ∈ tb, u ≠ []) :
    tokenSetScoreCore [] tb = 0 := by
  cases tb with
  | nil => rfl
  | cons t rest =>
    cases hsrt : sortBy strLe (t :: rest) with
    | nil => exact absurd hsrt sortBy_ne_nil
    | cons u us =>
      have hu : u ∈ t :: rest := by
        have hp := sortBy_perm strLe (t :: rest)
        rw [hsrt] at hp
        exact hp.mem_iff.mp (List.mem_cons_self u us)
      have hul : 1 ≤ u.length := by
        have hune := hne u hu
        cases u with
        | nil => exact absurd rfl hune
        | cons a as => simp
      have hlen : 1 ≤ (joinWith ' ' (u :: us)).length :=
        le_trans hul (joinWith_length_ge ' ' u us)
      unfold tokenSetScoreCore
      simp only [List.isEmpty_cons, List.isEmpty_nil, Bool.and_false,
        Bool.false_eq_true, if_false, List.not_mem_nil, decide_False,
        Bool.not_false, List.filter_true, List.filter_false, List.filter_nil,
        Bool.false_and, Bool.false_or, Bool.and_true]
      rw [hsrt]
      simp only [sortBy, joinWith, List.length_nil]
      have hd : indelDist [] (joinWith ' ' (u :: us)) = (joinWith ' ' (u :: us)).length := by
        unfold indelDist
        rw [lcsLen_nil_left]
        simp
      rw [hd]
      simp only [if_true, Nat.add_zero, Nat.zero_add]
      exact normSim_self (by omega)

lemma pyNormName_of_falsy {n : Option Str} (h : pyTruthy n = false) :
    pyNormName n = [] := by
  cases n with
  | none => rfl
  | some s =>
    cases s with
    | nil => rfl
    | cons c cs => simp [pyTruthy] at h

lemma tokSet_nil : tokSet [] = [] := rfl

lemma fuzzy_eq_zero_of_falsy_right (a : Option Str) {b : Option Str}
    (hb : pyTruthy b = false) : fuzzy a b = 0 := by
  unfold fuzzy tokenSetScore
  rw [pyNormName_of_falsy hb, tokSet_nil]
  exact tokenSetScoreCore_nil_right _ (fun u hu => tokSet_ne_nil hu)

lemma fuzzy_eq_zero_of_falsy_left {a : Option Str} (b : Option Str)
    (ha : pyTruthy a = false) : fuzzy a b = 0 := by
  unfold fuzzy tokenSetScore
  rw [pyNormName_of_falsy ha, tokSet_nil]
  exact tokenSetScoreCore_nil_left _ (fun u hu => tokSet_ne_nil hu)

lemma matchCond_eq_false_right (r : ℚ) (a b : GRow)
    (hb : pyTruthy b.row.name = false) : matchCond r a b = false := by
  unfold matchCond
  rw [fuzzy_eq_zero_of_falsy_right _ hb, hb]
  simp

lemma matchCond_eq_false_left (r : ℚ) (a b : GRow)
    (ha : pyTruthy a.row.name = false) : matchCond r a b = false := by
  unfold matchCond
  rw [fuzzy_eq_zero_of_falsy_left _ ha, ha]
  simp

/-! ### Lemmas: block structure -/

lemma matchCond_iff (r : ℚ) (a b : GRow) :
    matchCond r a b = true ↔
      (distLe a.geom b.geom r = true ∧
        (80 ≤ fuzzy a.row.name b.row.name ∨
          (pyTruthy a.row.name = true ∧ pyTruthy b.row.name = true ∧
            pyNormName a.row.name = pyNormName b.row.name))) := by
  unfold matchCond
  constructor
  · intro h
    simp only [Bool.and_eq_true, Bool.or_eq_true, decide_eq_true_eq] at h
    tauto
  · intro h
    simp only [Bool.and_eq_true, Bool.or_eq_true, decide_eq_true_eq]
    tauto

lemma blocksAux_structure (r : ℚ) (cand : List (Nat × GRow)) :
    ∀ (rest : List (Nat × GRow)) (used : List Nat) (b : List (Nat × GRow)),
      (∀ x ∈ rest, x ∈ cand) → b ∈ blocksAux r cand rest used →
      ∃ seed used', seed ∈ cand ∧ b = collectBlock r seed cand used' := by
  intro rest
  induction rest with
  | nil =>
    intro used b _ hb
    simp [blocksAux] at hb
  | cons i rest ih =>
    intro used b hsub hb
    simp only [blocksAux] at hb
    by_cases hi : i.1 ∈ used
    · rw [if_pos hi] at hb
      exact ih used b (fun x hx => hsub x (List.mem_cons_of_mem i hx)) hb
    · rw [if_neg hi] at hb
      rcases List.mem_cons.mp hb with rfl | hb
      · exact ⟨i, used, hsub i (List.mem_cons_self i rest), rfl⟩
      · exact ih _ b (fun x hx => hsub x (List.mem_cons_of_mem i hx)) hb

lemma mem_collectBlock_subset {r : ℚ} {seed x : Nat × GRow}
    {cand : List (Nat × GRow)} {used : List Nat} (hseed : seed ∈ cand)
    (hx : x ∈ collectBlock r seed cand used) : x ∈ cand := by
  rcases List.mem_cons.mp hx with rfl | hxf
  · exact hseed
  · exact List.mem_of_mem_filter hxf

/-! ### Lemmas: concrete distance evaluations (the kernel cannot reduce
rational arithmetic, so these are established propositionally) -/

lemma distLe_of_eq (p q : ℚ × ℚ) (r : ℚ) (hpq : p = q) : distLe p q r = true := by
  subst hpq
  unfold distLe
  rw [decide_eq_true_eq, sub_self, sub_self]
  nlinarith [sq_nonneg r]

lemma distLe_noName : distLe rowNoName.geom rowEmptyName.geom 200 = true := by
  unfold distLe rowNoName rowEmptyName mkRow
  rw [decide_eq_true_eq]
  norm_num

lemma matchCond_bang_qm : matchCond 200 rowBang rowQm = true := by
  unfold matchCond
  rw [distLe_of_eq rowBang.geom rowQm.geom 200 rfl]
  decide

/-! ### Claim C1 -/

/-- Claim C1, amended: within a bucket, a not-yet-used record `j` distinct
from the seed `i` is added to the block seeded by `i` exactly when the
planar distance between `i` and `j` is at most the radius threshold AND
either the fuzzy score of their names is at least 80, or both raw name
values are non-empty (truthy) and their normalized names are identical;
the comparison involves only the seed `i`, never other block members.
(The original claim required the normalized names to be identical AND
non-empty; the code instead tests the raw names for truthiness, which also
admits pairs whose normalizations are both empty.) -/
theorem c1_block_membership (r : ℚ) (seed j : Nat × GRow)
    (cand : List (Nat × GRow)) (used : List Nat)
    (hj : j ∈ cand) (hne : j.1 ≠ seed.1) (hu : j.1 ∉ used) :
    j ∈ collectBlock r seed cand used ↔
      (distLe seed.2.geom j.2.geom r = true ∧
        (80 ≤ fuzzy seed.2.row.name j.2.row.name ∨
          (pyTruthy seed.2.row.name = true ∧ pyTruthy j.2.row.name = true ∧
            pyNormName seed.2.row.name = pyNormName j.2.row.name))) := by
  rw [← matchCond_iff]
  constructor
  · intro h
    rcases List.mem_cons.mp h with heq | hmemf
    · exact absurd (congrArg Prod.fst heq) hne
    · have hp := List.of_mem_filter hmemf
      simp only [Bool.and_eq_true] at hp
      exact hp.2
  · intro h
    refine List.mem_cons_of_mem _ (List.mem_filter.mpr ⟨hj, ?_⟩)
    simp only [Bool.and_eq_true, Bool.not_eq_true', decide_eq_true_eq,
      decide_eq_false_iff_not]
    exact ⟨⟨hne, hu⟩, h⟩

/-- Claim C1, witness: the amended membership rule evaluated on a concrete
bucket. -/
theorem c1_block_membership_inst :
    (1, rowQm) ∈ collectBlock 200 (0, rowBang) candPunct [] ↔
      (distLe rowBang.geom rowQm.geom 200 = true ∧
        (80 ≤ fuzzy rowBang.row.name rowQm.row.name ∨
          (pyTruthy rowBang.row.name = true ∧ pyTruthy rowQm.row.name = true ∧
            pyNormName rowBang.row.name = pyNormName rowQm.row.name))) :=
  c1_block_membership 200 (0, rowBang) (1, rowQm) candPunct []
    (by decide) (by decide) (by decide)

/-- Claim C1, counterexample to the original wording: two co-located
records named with bare punctuation.  The code adds the second to the
block seeded by the first (raw names truthy, normalizations both empty
hence equal), but the claim's condition — fuzzy score at least 80, or
identical AND NON-EMPTY normalized names — is false for this pair. -/
theorem c1_counterexample :
    (1, rowQm) ∈ collectBlock 200 (0, rowBang) candPunct [] ∧
    claimMatchCond 200 rowBang rowQm = false := by
  constructor
  · have hm := matchCond_bang_qm
    simp [collectBlock, candPunct, hm]
  · unfold claimMatchCond
    rw [distLe_of_eq rowBang.geom rowQm.geom 200 rfl]
    decide

/-! ### Claim C5 -/

/-- Claim C5, amended: a record whose raw name value is absent or the
empty string is never grouped with any other record — its block is the
singleton containing exactly that record, so two such records always land
in separate blocks.  (The original claim asserted this for every pair
whose NORMALIZED names are empty; it fails when the raw names are
non-empty punctuation, because the code's identical-normalized-names test
only requires the raw names to be truthy.) -/
theorem c5_empty_name_singleton (r : ℚ) (cand : List (Nat × GRow))
    (b : List (Nat × GRow)) (x : Nat × GRow)
    (hb : b ∈ blocksOf r cand) (hx : x ∈ b)
    (hfalsy : pyTruthy x.2.row.name = false) : b = [x] := by
  rcases blocksAux_structure r cand cand [] b (fun y hy => hy) hb with
    ⟨seed, used', _, rfl⟩
  rcases List.mem_cons.mp hx with rfl | hxf
  · unfold collectBlock
    rw [List.filter_eq_nil_iff.mpr ?_]
    intro a _
    rw [matchCond_eq_false_left r x.2 a.2 hfalsy]
    simp
  · have hp := List.of_mem_filter hxf
    rw [matchCond_eq_false_right r seed.2 x.2 hfalsy] at hp
    simp at hp

/-- Claim C5, witness: on a concrete bucket holding one absent-named and
one empty-named record 5 m apart, the absent-named record's block is a
singleton. -/
theorem c5_empty_name_singleton_inst :
    [((0 : Nat), rowNoName)] = [((0 : Nat), rowNoName)] :=
  c5_empty_name_singleton 200 candNoName [(0, rowNoName)] (0, rowNoName)
    (by
      have h1 : matchCond 200 rowNoName rowEmptyName = false :=
        matchCond_eq_false_left 200 rowNoName rowEmptyName rfl
      have h2 : matchCond 200 rowEmptyName rowNoName = false :=
        matchCond_eq_false_left 200 rowEmptyName rowNoName rfl
      simp [blocksOf, blocksAux, collectBlock, candNoName, h1, h2])
    (by decide) (by decide)

/-- Claim C5, counterexample to the original wording: two co-located
records whose normalized names are both empty (their raw names are bare
punctuation) end up in the SAME block — the claim predicts separate
blocks. -/
theorem c5_counterexample :
    pyNormName rowBang.row.name = [] ∧ pyNormName rowQm.row.name = [] ∧
    distLe rowBang.geom rowQm.geom 200 = true ∧
    bucketKey rowBang.geom = bucketKey rowQm.geom ∧
    blocksOf 200 candPunct = [[(0, rowBang), (1, rowQm)]] := by
  refine ⟨rfl, rfl, distLe_of_eq rowBang.geom rowQm.geom 200 rfl, rfl, ?_⟩
  have hm := matchCond_bang_qm
  simp [blocksOf, blocksAux, collectBlock, candPunct, hm]

/-! ### Claim C2 -/

/-- Claim C2, amended: the base record of a block is the earliest block
member (in block order) whose source tag is `srcLe`-below the tag of every
block member, where `srcLe` compares tags lexicographically and sorts an
ABSENT tag after everything.  (The original claim also sorted EMPTY-string
tags last; in the code an empty tag is an ordinary string and sorts before
every non-empty tag, as the counterexample shows.) -/
theorem c2_base_selection (blk : List (Nat × GRow)) :
    selectBase blk = firstMinBy blk := by
  unfold selectBase sortBlock firstMinBy
  exact head?_sortBy (fun x y => srcLe x.2.row.source_primary y.2.row.source_primary)
    (fun a => srcLe_refl _) (fun a b => srcLe_total _ _)
    (fun a b c h1 h2 => by exact srcLe_trans h1 h2) blk

/-- Claim C2, counterexample to the original wording: in a block whose
members carry the source tags `b` and the empty string, the code selects
the EMPTY-tagged member as base (the empty string is lexicographically
least), while the claim's order (absent/empty tags last) selects the
`b`-tagged member. -/
theorem c2_counterexample :
    selectBase blkTags = some (1, rowTagEmpty) ∧
    claimSelectBase blkTags = some (0, rowTagB) := by decide

/-! ### Claim C3 -/

lemma mem_of_selectBase {blk : List (Nat × GRow)} {base : Nat × GRow}
    (hb : selectBase blk = some base) : base ∈ blk := by
  unfold selectBase sortBlock at hb
  have hp := sortBy_perm (fun x y => srcLe x.2.row.source_primary y.2.row.source_primary) blk
  cases hs : sortBy (fun x y => srcLe x.2.row.source_primary y.2.row.source_primary) blk with
  | nil => rw [hs] at hb; simp at hb
  | cons x t =>
    rw [hs] at hb hp
    simp only [List.head?_cons, Option.some.injEq] at hb
    subst hb
    exact hp.mem_iff.mp (List.mem_cons_self x t)

lemma collectBlock_fst_nodup {r : ℚ} {seed : Nat × GRow} {cand : List (Nat × GRow)}
    {used : List Nat} (hnd : (cand.map Prod.fst).Nodup) (_hseed : seed ∈ cand) :
    ((collectBlock r seed cand used).map Prod.fst).Nodup := by
  unfold collectBlock
  rw [List.map_cons, List.nodup_cons]
  constructor
  · intro hmem
    rcases List.mem_map.mp hmem with ⟨j, hj, hj1⟩
    have hp := List.of_mem_filter hj
    simp only [Bool.and_eq_true, decide_eq_true_eq] at hp
    exact hp.1.1 hj1
  · exact ((List.filter_sublist cand).map Prod.fst).nodup hnd

/-- Claim C3: the provenance column of a merged record is the
semicolon-joined (string-rendered) source tags of exactly the non-base
members of its block, in block order, with repeated tags kept. -/
theorem c3_provenance (r : ℚ) (grp blk : List (Nat × GRow)) (mr : MRow)
    (base : Nat × GRow) (hnd : (grp.map Prod.fst).Nodup)
    (hblk : blk ∈ blocksOf r grp) (hm : mergeBlock blk = some mr)
    (hb : selectBase blk = some base) :
    mr.source_secondary =
      joinWith ';' ((blk.filter (fun p => decide (p ≠ base))).map
        (fun p => pyStr p.2.row.source_primary)) := by
  have hbase : base ∈ blk := mem_of_selectBase hb
  have hbnd : (blk.map Prod.fst).Nodup := by
    rcases blocksAux_structure r grp grp [] blk (fun y hy => hy) hblk with
      ⟨seed, used', hs, rfl⟩
    exact collectBlock_fst_nodup hnd hs
  have hfilter : blk.filter (fun p => decide (p.1 ≠ base.1)) =
      blk.filter (fun p => decide (p ≠ base)) := by
    apply List.filter_congr
    intro p hp
    rw [decide_eq_decide]
    constructor
    · intro h1 hc
      exact h1 (congrArg Prod.fst hc)
    · intro hne h1
      exact hne (List.inj_on_of_nodup_map hbnd hp hbase h1)
  unfold mergeBlock at hm
  rw [hb] at hm
  cases hm
  dsimp only
  rw [hfilter]

/-- Claim C3, witness: the provenance rule evaluated on a concrete block
of two identically named records from sources `a` and `b`. -/
theorem c3_provenance_inst :
    mrSrc.source_secondary =
      joinWith ';' ((blkSrc.filter (fun p => decide (p ≠ ((0 : Nat), rowSrcA)))).map
        (fun p => pyStr p.2.row.source_primary)) :=
  c3_provenance 200 grpSrc blkSrc mrSrc (0, rowSrcA) (by decide)
    (by
      have hm : matchCond 200 rowSrcA rowSrcB = true := by
        unfold matchCond
        rw [distLe_of_eq rowSrcA.geom rowSrcB.geom 200 rfl]
        decide
      simp [blocksOf, blocksAux, collectBlock, grpSrc, blkSrc, hm])
    (by decide) (by decide)

/-! ### Claim C4 -/

lemma getCol_backfillRow (c : BackfillCol) (blk : List (Nat × GRow)) (b : Row) :
    getCol c (backfillRow blk b) = backfill blk (getCol c) (getCol c b) := by
  cases c <;> rfl

/-- Claim C4: for every backfillable attribute, if the base record's value
is non-blank then the merged record keeps the base's value unchanged —
backfilling can only fill attributes that are absent or blank on the
base. -/
theorem c4_base_never_overwritten (blk : List (Nat × GRow)) (mr : MRow)
    (base : Nat × GRow) (c : BackfillCol)
    (hm : mergeBlock blk = some mr) (hb : selectBase blk = some base)
    (hnb : isBlankV (getCol c base.2.row) = false) :
    getCol c mr.row = getCol c base.2.row := by
  unfold mergeBlock at hm
  rw [hb] at hm
  cases hm
  dsimp only
  rw [getCol_backfillRow]
  unfold backfill
  rw [hnb]
  simp

/-- Claim C4, witness: a concrete block whose base has a phone value; the
merged record keeps the base's phone even though another member carries a
different one. -/
theorem c4_base_never_overwritten_inst :
    getCol BackfillCol.phone mrPh.row = getCol BackfillCol.phone rowPhA.row :=
  c4_base_never_overwritten blkPh mrPh (0, rowPhA) BackfillCol.phone
    (by decide) (by decide) (by decide)

/-! ### Claim C8 -/

lemma filter_split_perm (p q : α → Bool) (l : List α) :
    List.Perm (l.filter p)
      (l.filter (fun x => p x && q x) ++ l.filter (fun x => p x && !q x)) := by
  induction l with
  | nil => exact List.Perm.refl _
  | cons a l ih =>
    by_cases hp : p a = true
    · by_cases hq : q a = true
      · rw [List.filter_cons_of_pos hp, List.filter_cons_of_pos (by simp [hp, hq]),
          List.filter_cons_of_neg (by simp [hp, hq]), List.cons_append]
        exact ih.cons a
      · rw [List.filter_cons_of_pos hp, List.filter_cons_of_neg (by simp [hp, hq]),
          List.filter_cons_of_pos (by simp [hp, hq])]
        exact (ih.cons a).trans List.perm_middle.symm
    · rw [List.filter_cons_of_neg hp, List.filter_cons_of_neg (by simp [hp]),
        List.filter_cons_of_neg (by simp [hp])]
      exact ih

lemma blocksAux_flatten_perm (r : ℚ) (cand : List (Nat × GRow))
    (hnd : (cand.map Prod.fst).Nodup) :
    ∀ (rest : List (Nat × GRow)) (used : List Nat),
      (∀ x ∈ rest, x ∈ cand) →
      (∀ x ∈ cand, x.1 ∉ used → x ∈ rest) →
      List.Perm (blocksAux r cand rest used).flatten
        (cand.filter (fun x => !decide (x.1 ∈ used))) := by
  have hinj : ∀ x ∈ cand, ∀ y ∈ cand, x.1 = y.1 → x = y :=
    fun x hx y hy h => List.inj_on_of_nodup_map hnd hx hy h
  have hcand : cand.Nodup := hnd.of_map
  intro rest
  induction rest with
  | nil =>
    intro used _ hinv
    have hfn : cand.filter (fun x => !decide (x.1 ∈ used)) = [] := by
      rw [List.filter_eq_nil_iff]
      intro a ha hcontra
      simp only [Bool.not_eq_true', decide_eq_false_iff_not] at hcontra
      exact absurd (hinv a ha hcontra) (List.not_mem_nil a)
    rw [hfn]
    exact List.Perm.refl _
  | cons i rest ih =>
    intro used hsub hinv
    simp only [blocksAux]
    by_cases hi : i.1 ∈ used
    · rw [if_pos hi]
      refine ih used (fun x hx => hsub x (List.mem_cons_of_mem i hx)) ?_
      intro x hx hxu
      rcases List.mem_cons.mp (hinv x hx hxu) with rfl | h
      · exact absurd hi hxu
      · exact h
    · rw [if_neg hi, List.flatten_cons]
      have hic : i ∈ cand := hsub i (List.mem_cons_self i rest)
      have hA : List.Perm
          (cand.filter (fun x => !decide (x.1 ∈ used) &&
            decide (x.1 ∈ (collectBlock r i cand used).map Prod.fst)))
          (collectBlock r i cand used) := by
        have hdA : (cand.filter (fun x => !decide (x.1 ∈ used) &&
            decide (x.1 ∈ (collectBlock r i cand used).map Prod.fst))).Nodup :=
          hcand.filter _
        have hdB : (collectBlock r i cand used).Nodup :=
          (collectBlock_fst_nodup hnd hic).of_map
        rw [List.perm_ext_iff_of_nodup hdA hdB]
        intro x
        constructor
        · intro hx
          have hxc := List.mem_of_mem_filter hx
          have hxp := List.of_mem_filter hx
          simp only [Bool.and_eq_true, Bool.not_eq_true', decide_eq_false_iff_not,
            decide_eq_true_eq] at hxp
          rcases List.mem_map.mp hxp.2 with ⟨j, hj, hj1⟩
          rcases List.mem_cons.mp hj with rfl | hjf
          · rw [hinj x hxc j hic hj1.symm]
            exact List.mem_cons_self _ _
          · have hjc : j ∈ cand := List.mem_of_mem_filter hjf
            rw [hinj x hxc j hjc hj1.symm]
            exact List.mem_cons_of_mem _ hjf
        · intro hx
          have hxc : x ∈ cand := mem_collectBlock_subset hic hx
          refine List.mem_filter.mpr ⟨hxc, ?_⟩
          have hxu : x.1 ∉ used := by
            rcases List.mem_cons.mp hx with rfl | hxf
            · exact hi
            · have hxp := List.of_mem_filter hxf
              simp only [Bool.and_eq_true, Bool.not_eq_true',
                decide_eq_false_iff_not] at hxp
              exact hxp.1.2
          simp only [Bool.and_eq_true, Bool.not_eq_true', decide_eq_false_iff_not,
            decide_eq_true_eq]
          exact ⟨hxu, List.mem_map.mpr ⟨x, hx, rfl⟩⟩
      have hrec : List.Perm
          (blocksAux r cand rest
            (used ++ (collectBlock r i cand used).map Prod.fst)).flatten
          (cand.filter (fun x =>
            !decide (x.1 ∈ used ++ (collectBlock r i cand used).map Prod.fst))) := by
        refine ih _ (fun x hx => hsub x (List.mem_cons_of_mem i hx)) ?_
        intro x hx hxu
        have hxu1 : x.1 ∉ used := fun hc => hxu (List.mem_append.mpr (Or.inl hc))
        rcases List.mem_cons.mp (hinv x hx hxu1) with rfl | h
        · exfalso
          apply hxu
          refine List.mem_append.mpr (Or.inr ?_)
          exact List.mem_map.mpr ⟨x, List.mem_cons_self _ _, rfl⟩
        · exact h
      have hB : cand.filter (fun x => !decide (x.1 ∈ used) &&
            !decide (x.1 ∈ (collectBlock r i cand used).map Prod.fst)) =
          cand.filter (fun x =>
            !decide (x.1 ∈ used ++ (collectBlock r i cand used).map Prod.fst)) := by
        refine List.filter_congr ?_
        intro x _
        by_cases h1 : x.1 ∈ used <;>
          by_cases h2 : x.1 ∈ (collectBlock r i cand used).map Prod.fst <;>
          simp [h1, h2, List.mem_append]
      refine List.Perm.trans ?_
        (filter_split_perm (fun x => !decide (x.1 ∈ used))
          (fun x => decide (x.1 ∈ (collectBlock r i cand used).map Prod.fst)) cand).symm
      rw [hB]
      exact List.Perm.append hA.symm hrec

/-- Claim C8: within each bucket, the blocks partition the bucket's
membership — the concatenation of the blocks is a permutation of the
bucket and distinct blocks are pairwise disjoint. -/
theorem c8_blocks_partition (r : ℚ) (rows : List (Nat × GRow))
    (hnd : (rows.map Prod.fst).Nodup) (grp : List (Nat × GRow))
    (hg : grp ∈ groupByCluster rows) :
    List.Perm (blocksOf r grp).flatten grp ∧
      List.Pairwise List.Disjoint (blocksOf r grp) := by
  rcases List.mem_map.mp hg with ⟨k, hk, rfl⟩
  have hgnd : ((rows.filter (fun p => decide (bucketKey p.2.geom = k))).map
      Prod.fst).Nodup :=
    ((List.filter_sublist rows).map Prod.fst).nodup hnd
  have hperm := blocksAux_flatten_perm r
    (rows.filter (fun p => decide (bucketKey p.2.geom = k))) hgnd
    (rows.filter (fun p => decide (bucketKey p.2.geom = k))) []
    (fun x hx => hx) (fun x hx _ => hx)
  have hfe : (rows.filter (fun p => decide (bucketKey p.2.geom = k))).filter
      (fun x => !decide (x.1 ∈ ([] : List Nat))) =
      rows.filter (fun p => decide (bucketKey p.2.geom = k)) := by
    refine List.filter_eq_self.mpr ?_
    intro a _
    simp
  rw [hfe] at hperm
  refine ⟨hperm, ?_⟩
  have hnodup : (blocksOf r (rows.filter
      (fun p => decide (bucketKey p.2.geom = k)))).flatten.Nodup :=
    hperm.nodup_iff.mpr (hgnd.of_map)
  exact (List.nodup_flatten.mp hnodup).2

/-- The distinct-labels hypothesis of `c8_blocks_partition` (and of
`c3_provenance`) holds for the row list that `mainProcess` actually feeds
to the clusterer: row labels come from `enum`. -/
lemma kept_fst_nodup (inputs : List (List Row)) (f : Nat × Row → Bool) :
    (((inputs.flatten.map fillName).enum.filter f).map Prod.fst).Nodup := by
  have h1 : ((inputs.flatten.map fillName).enum.map Prod.fst).Nodup := by
    rw [List.enum_map_fst]
    exact List.nodup_range _
  exact ((List.filter_sublist _).map Prod.fst).nodup h1

/-- Claim C8, witness: the partition property on a concrete two-record
bucket. -/
theorem c8_blocks_partition_inst :
    List.Perm (blocksOf 200 candPunct).flatten candPunct ∧
      List.Pairwise List.Disjoint (blocksOf 200 candPunct) :=
  c8_blocks_partition 200 candPunct (by decide) candPunct
    (by simp [groupByCluster, keysOf, candPunct, rowBang, rowQm, mkRow])

/-! ### Claims C6 and C7 -/

lemma backfillRow_latitude (blk : List (Nat × GRow)) (b : Row) :
    (backfillRow blk b).latitude = b.latitude := rfl

lemma backfillRow_longitude (blk : List (Nat × GRow)) (b : Row) :
    (backfillRow blk b).longitude = b.longitude := rfl

lemma out_rows_mem_coords (proj : ℚ × ℚ → ℚ × ℚ) (r : ℚ)
    (rows : List (Nat × Row)) (hc : ∀ p ∈ rows, hasCoords p.2 = true)
    (mr : MRow) (hm : mr ∈ out_rows proj r rows) :
    mr.row.latitude.isSome ∧ mr.row.longitude.isSome := by
  unfold out_rows at hm
  rcases List.mem_flatten.mp hm with ⟨bucketOut, hbo, hmr⟩
  rcases List.mem_map.mp hbo with ⟨grp, hgrp, rfl⟩
  unfold processBucket at hmr
  rcases List.mem_filterMap.mp hmr with ⟨blk, hblk, hmb⟩
  unfold mergeBlock at hmb
  cases hsb : selectBase blk with
  | none => rw [hsb] at hmb; simp at hmb
  | some base =>
    rw [hsb] at hmb
    simp only [Option.some.injEq] at hmb
    subst hmb
    have hbase : base ∈ blk := mem_of_selectBase hsb
    have hsubgrp : ∀ x ∈ blk, x ∈ grp := by
      rcases blocksAux_structure r grp grp [] blk (fun y hy => hy) hblk with
        ⟨seed, used', hs, rfl⟩
      exact fun x hx => mem_collectBlock_subset hs hx
    rcases List.mem_map.mp hgrp with ⟨k, hk, rfl⟩
    have hbg : base ∈ (rows.map (fun p =>
        (p.1, GRow.mk p.2 (proj ((p.2.longitude).getD 0, (p.2.latitude).getD 0))))) :=
      List.mem_of_mem_filter (hsubgrp base hbase)
    rcases List.mem_map.mp hbg with ⟨p, hp, rfl⟩
    have hcp := hc p hp
    simp only [hasCoords, Bool.and_eq_true] at hcp
    rw [backfillRow_latitude, backfillRow_longitude]
    exact hcp

lemma keysOf_foldl_ne_nil (l : List (Nat × GRow)) :
    ∀ ks : List (ℤ × ℤ), ks ≠ [] →
      l.foldl (fun ks p =>
        if bucketKey p.2.geom ∈ ks then ks else ks ++ [bucketKey p.2.geom]) ks ≠ [] := by
  induction l with
  | nil =>
    intro ks h
    exact h
  | cons x l ih =>
    intro ks h
    rw [List.foldl_cons]
    apply ih
    by_cases hx : bucketKey x.2.geom ∈ ks
    · rw [if_pos hx]
      exact h
    · rw [if_neg hx]
      simp

lemma keysOf_ne_nil {l : List (Nat × GRow)} (h : l ≠ []) : keysOf l ≠ [] := by
  cases l with
  | nil => exact absurd rfl h
  | cons x l =>
    unfold keysOf
    rw [List.foldl_cons]
    apply keysOf_foldl_ne_nil
    rw [if_neg (List.not_mem_nil _)]
    simp

lemma mem_keysOf_foldl (l : List (Nat × GRow)) :
    ∀ (ks : List (ℤ × ℤ)) (k : ℤ × ℤ),
      k ∈ l.foldl (fun ks p =>
        if bucketKey p.2.geom ∈ ks then ks else ks ++ [bucketKey p.2.geom]) ks →
      k ∈ ks ∨ ∃ x ∈ l, k = bucketKey x.2.geom := by
  induction l with
  | nil =>
    intro ks k h
    exact Or.inl h
  | cons x l ih =>
    intro ks k h
    rw [List.foldl_cons] at h
    rcases ih _ k h with hks | ⟨y, hy, hk⟩
    · by_cases hx : bucketKey x.2.geom ∈ ks
      · rw [if_pos hx] at hks
        exact Or.inl hks
      · rw [if_neg hx] at hks
        rcases List.mem_append.mp hks with h1 | h2
        · exact Or.inl h1
        · exact Or.inr ⟨x, List.mem_cons_self x l, List.mem_singleton.mp h2⟩
    · exact Or.inr ⟨y, List.mem_cons_of_mem x hy, hk⟩

lemma group_ne_nil {l : List (Nat × GRow)} {k : ℤ × ℤ} (hk : k ∈ keysOf l) :
    l.filter (fun p => decide (bucketKey p.2.geom = k)) ≠ [] := by
  rcases mem_keysOf_foldl l [] k hk with h | ⟨x, hx, hkx⟩
  · exact absurd h (List.not_mem_nil k)
  · refine List.ne_nil_of_mem (List.mem_filter.mpr ⟨hx, ?_⟩)
    exact decide_eq_true hkx.symm

lemma processBucket_ne_nil (r : ℚ) {grp : List (Nat × GRow)} (h : grp ≠ []) :
    processBucket r grp ≠ [] := by
  cases grp with
  | nil => exact absurd rfl h
  | cons y rest =>
    unfold processBucket blocksOf
    simp only [blocksAux]
    rw [if_neg (List.not_mem_nil _)]
    have hmb : ∃ mr, mergeBlock (collectBlock r y (y :: rest) []) = some mr := by
      unfold mergeBlock
      cases hsb : selectBase (collectBlock r y (y :: rest) []) with
      | none =>
        exfalso
        unfold selectBase sortBlock at hsb
        rw [List.head?_eq_none_iff] at hsb
        exact sortBy_ne_nil hsb
      | some base => exact ⟨_, rfl⟩
    rcases hmb with ⟨mr, hmr⟩
    simp only [List.filterMap_cons, hmr]
    simp

lemma out_rows_ne_nil (proj : ℚ × ℚ → ℚ × ℚ) (r : ℚ) {rows : List (Nat × Row)}
    (h : rows ≠ []) : out_rows proj r rows ≠ [] := by
  unfold out_rows
  intro hc
  rw [List.flatten_eq_nil_iff] at hc
  have hgne : rows.map (fun p =>
      (p.1, GRow.mk p.2 (proj ((p.2.longitude).getD 0, (p.2.latitude).getD 0)))) ≠ [] := by
    simpa using h
  cases hks : keysOf (rows.map (fun p =>
      (p.1, GRow.mk p.2 (proj ((p.2.longitude).getD 0, (p.2.latitude).getD 0))))) with
  | nil => exact keysOf_ne_nil hgne hks
  | cons k kt =>
    have hk : k ∈ keysOf (rows.map (fun p =>
        (p.1, GRow.mk p.2 (proj ((p.2.longitude).getD 0, (p.2.latitude).getD 0))))) := by
      rw [hks]
      exact List.mem_cons_self _ _
    refine processBucket_ne_nil r (group_ne_nil hk) (hc _ ?_)
    refine List.mem_map_of_mem _ ?_
    unfold groupByCluster
    exact List.mem_map_of_mem _ hk

/-- Claim C6, amended: provided at least one input record retains both
coordinates, the pipeline does not fail — it returns an output collection
— and every record lacking a latitude or a longitude is silently excluded
from clustering and from that output: each emitted row keeps its base
record's coordinate fields, which are both present.  (Unconditionally the
claim is false: when a NONEMPTY input's records all lack a coordinate,
the clustering input is empty, `out_rows` stays empty, and the final
`drop(columns=["geometry","cluster"])` at `merge_dedupe.py:52` raises
`KeyError` — the pipeline fails; see the counterexample.) -/
theorem c6_missing_coords_excluded (proj : ℚ × ℚ → ℚ × ℚ)
    (inputs : List (List Row))
    (h : ∃ row ∈ inputs.flatten, hasCoords row = true) :
    ∃ out, mainProcess proj inputs = some out ∧
      ∀ mr ∈ out, mr.row.latitude.isSome ∧ mr.row.longitude.isSome := by
  obtain ⟨row, hrow, hcrow⟩ := h
  have hfne : inputs.flatten ≠ [] := by
    intro hcn
    rw [hcn] at hrow
    exact (List.not_mem_nil row) hrow
  have hkept : ((inputs.flatten.map fillName).enum.filter
      (fun p => hasCoords p.2)) ≠ [] := by
    have hmm : fillName row ∈ ((inputs.flatten.map fillName).enum.map Prod.snd) := by
      rw [List.enum_map_snd]
      exact List.mem_map_of_mem fillName hrow
    rcases List.mem_map.mp hmm with ⟨p, hp, hp2⟩
    refine List.ne_nil_of_mem (List.mem_filter.mpr ⟨hp, ?_⟩)
    rw [hp2]
    show hasCoords (fillName row) = true
    exact hcrow
  refine ⟨out_rows proj 200
    ((inputs.flatten.map fillName).enum.filter (fun p => hasCoords p.2)), ?_, ?_⟩
  · unfold mainProcess
    rw [if_neg (fun hcc => hfne (List.isEmpty_iff.mp hcc))]
    unfold geo_dedup
    rw [if_neg (fun hcc =>
      out_rows_ne_nil proj 200 hkept (List.isEmpty_iff.mp hcc))]
  · intro mr hmr
    refine out_rows_mem_coords proj 200 _ ?_ mr hmr
    intro p hp
    have h2 := List.of_mem_filter hp
    simpa using h2

/-- Claim C6, witness: a concrete run on one good row and one row lacking
its latitude — the run succeeds and every emitted record carries both
coordinates. -/
theorem c6_missing_coords_excluded_inst :
    ∃ out, mainProcess projId inputsW = some out ∧
      ∀ mr ∈ out, mr.row.latitude.isSome ∧ mr.row.longitude.isSome :=
  c6_missing_coords_excluded projId inputsW (by decide)

/-- Claim C6, counterexample to the original wording: a one-row input
whose only record lacks its latitude.  Every row is dropped before
clustering, `out_rows` stays empty, and the column-drop of
`merge_dedupe.py:52` raises `KeyError` — modelled as `none` — so the
pipeline DOES fail, against the claim's "does not fail". -/
theorem c6_counterexample : mainProcess projId [[rowBad]] = none := by rfl

/-- Claim C7: an empty input record collection takes `main`'s early
return: the engine produces an empty output collection and raises no
error (`some []`, never `none`). -/
theorem c7_empty_input (proj : ℚ × ℚ → ℚ × ℚ) (inputs : List (List Row))
    (h : inputs.flatten = []) : mainProcess proj inputs = some [] := by
  unfold mainProcess
  rw [h]
  rfl

/-- Claim C7, witness: the empty list of input tables yields the empty
output. -/
theorem c7_empty_input_inst : mainProcess projId [] = some [] :=
  c7_empty_input projId [] rfl

end MergeDedupe
